import Mathlib

/-!
Shallow embedding of the ephemeral message store from `src/main.py` and
`src/ephemeral_message_api.py`. The two files contain the same store logic
(`store` dict, `send`, `recv`, the cleanup thread's sweep pass); the API file
additionally defines `health`. Python's `time.time()` timestamps are modelled
as integers passed explicitly as `now`; the process-wide `store` dict is
modelled as an association list with dict semantics (assignment replaces the
entry for an existing key in place, `del` removes it); `secrets.token_hex(4)`
is modelled by hex-encoding an externally supplied list of 4 random bytes.
-/

set_option autoImplicit false

namespace EphemeralMessage

/-- A stored message, mirroring the dict value
`{"data": str, "expires": float, "views_left": int}`. -/
structure MessageRecord where
  data : String
  expires : Int
  views_left : Int
deriving DecidableEq, Repr

/-- The `store` dict: id → record, as an association list. -/
structure Store where
  entries : List (String × MessageRecord)
deriving DecidableEq, Repr

/-- `store.get(id)`: first entry with the given key. -/
def lookupKey : List (String × MessageRecord) → String → Option MessageRecord
  | [], _ => none
  | (k, v) :: rest, id => if k = id then some v else lookupKey rest id

/-- `store[id] = v`: replace the entry for `id` in place if present,
otherwise append it (Python dict assignment). -/
def setKey : List (String × MessageRecord) → String → MessageRecord →
    List (String × MessageRecord)
  | [], id, v => [(id, v)]
  | (k, w) :: rest, id, v =>
    if k = id then (id, v) :: rest else (k, w) :: setKey rest id v

/-- `del store[id]`: remove the entry for `id`. -/
def dropKey (l : List (String × MessageRecord)) (id : String) :
    List (String × MessageRecord) :=
  l.filter (fun kv => !(decide (kv.1 = id)))

/-- Well-formedness of the model of a Python dict: keys occur at most once. -/
def Store.WF (s : Store) : Prop := (s.entries.map Prod.fst).Nodup

instance (s : Store) : Decidable s.WF := by
  unfold Store.WF; infer_instance

/-- `TTL_SECONDS = 60`. -/
def TTL_SECONDS : Int := 60

/-- Request body `MessageIn(text, ttl=None, max_views=1)`. -/
structure MessageIn where
  text : String
  ttl : Option Int := none
  max_views : Option Int := some 1
deriving DecidableEq, Repr

/-- Python `x or d` for `x : int | None`: `None` and `0` are falsy and give
the default, every other integer (including negatives) is kept. -/
def pyOrInt (x : Option Int) (d : Int) : Int :=
  match x with
  | none => d
  | some v => if v = 0 then d else v

/-- The JSON object returned by `send`. -/
structure SendResult where
  id : String
  expires_in : Int
  link : String
deriving DecidableEq, Repr

/-- `send` (`POST /send`): store the message under the freshly generated
token and return id, ttl and link. The token (`secrets.token_hex(4)`) is an
input here; `now` is the value of `time.time()` during the call. -/
def send (s : Store) (now : Int) (token : String) (msg : MessageIn) :
    Store × SendResult :=
  let ttl := pyOrInt msg.ttl TTL_SECONDS
  let entry : MessageRecord :=
    { data := msg.text, expires := now + ttl,
      views_left := pyOrInt msg.max_views 1 }
  (⟨setKey s.entries token entry⟩,
   { id := token, expires_in := ttl, link := "/recv/" ++ token ++ "/view" })

/-- `recv` (`GET /recv/{msg_id}`): look the id up (an entry is a non-empty
dict, so `if not entry` is exactly the `None` check), decrement
`views_left`, delete the record when it reaches `<= 0`, and return the text;
`none` models the 404 "Message not found or expired" response. The function
takes no clock: the source never reads the time in `recv`. -/
def recv (s : Store) (id : String) : Store × Option String :=
  match lookupKey s.entries id with
  | none => (s, none)
  | some entry =>
    let entry' : MessageRecord := { entry with views_left := entry.views_left - 1 }
    if entry'.views_left ≤ 0 then (⟨dropKey s.entries id⟩, some entry'.data)
    else (⟨setKey s.entries id entry'⟩, some entry'.data)

/-- The condition of the cleanup loop's list comprehension:
`v["expires"] < now or v["views_left"] <= 0`. -/
def sweepPred (now : Int) (v : MessageRecord) : Bool :=
  decide (v.expires < now) || decide (v.views_left ≤ 0)

/-- One pass of `cleanup_loop` inside `start_cleanup_thread`: collect the
keys of records matching `sweepPred`, then delete each of them. -/
def cleanup_pass (s : Store) (now : Int) : Store :=
  let expired := (s.entries.filter (fun kv => sweepPred now kv.2)).map Prod.fst
  ⟨expired.foldl (fun acc k => dropKey acc k) s.entries⟩

/-- `health` (`GET /health`): reports `len(store)`. -/
def health (s : Store) : Nat := s.entries.length

/-- Number of records satisfying the spec's LIVE invariant
(`viewsRemaining > 0` and `now < expiresAt`); written from the spec's words,
for comparison with `health`. -/
def liveCount (s : Store) (now : Int) : Nat :=
  (s.entries.filter
    (fun kv => decide (0 < kv.2.views_left) && decide (now < kv.2.expires))).length

/-- One operation against the store: a `send` with the token the id source
produced and the call's `time.time()`, a `recv`, or a cleanup pass at the
sweeper's `time.time()`. -/
inductive Op where
  | put (token : String) (now : Int) (msg : MessageIn)
  | take (id : String)
  | sweep (now : Int)
deriving DecidableEq, Repr

/-- Effect of one operation on the store. -/
def step (s : Store) : Op → Store
  | .put token now msg => (send s now token msg).1
  | .take id => (recv s id).1
  | .sweep now => cleanup_pass s now

/-- Run a sequence of operations. -/
def run (s : Store) : List Op → Store
  | [] => s
  | op :: rest => run (step s op) rest

/-- The results (`found`) of the `take id` calls in an operation sequence,
in order. -/
def takeResults (id : String) : Store → List Op → List Bool
  | _, [] => []
  | s, Op.take j :: rest =>
    if j = id then (recv s j).2.isSome :: takeResults id (recv s j).1 rest
    else takeResults id (recv s j).1 rest
  | s, op :: rest => takeResults id (step s op) rest

/-- An operation sequence that never re-`put`s the given id. -/
def NoPut (id : String) (ops : List Op) : Prop :=
  ∀ t n m, Op.put t n m ∈ ops → t ≠ id

/-- The spec's preconditions on a `Put`: `ttl > 0` and `maxViews ≥ 1`
(a `None` falls back to the defaults 60 and 1, which satisfy them). -/
def ValidPut : Op → Prop
  | .put _ _ m =>
    (∀ v, m.ttl = some v → 0 < v) ∧ (∀ v, m.max_views = some v → 1 ≤ v)
  | _ => True

/-- Every record in the store has at least one view left. -/
def viewsPos (s : Store) : Prop := ∀ kv ∈ s.entries, 1 ≤ kv.2.views_left

/-- Hex digit character, `0`–`9` then `a`–`f` (lowercase). -/
def hexDigit (n : Nat) : Char :=
  if n < 10 then Char.ofNat (48 + n) else Char.ofNat (87 + n)

/-- Lowercase hex encoding of one byte, high nibble first. -/
def byteToHex (b : Nat) : List Char := [hexDigit (b / 16), hexDigit (b % 16)]

/-- Model of `secrets.token_hex`: hex-encode the random bytes the OS source
produced. `secrets.token_hex(4)` is `token_hex bytes` for some `bytes` with
`bytes.length = 4` and each byte `< 256`. -/
def token_hex (bytes : List Nat) : String := ⟨bytes.flatMap byteToHex⟩

/-! ### Lemmas about the store primitives -/

theorem lookupKey_setKey_self (l : List (String × MessageRecord)) (k : String)
    (v : MessageRecord) : lookupKey (setKey l k v) k = some v := by
  induction l with
  | nil => simp [setKey, lookupKey]
  | cons kv rest ih =>
    obtain ⟨k', w⟩ := kv
    by_cases h : k' = k
    · simp [setKey, h, lookupKey]
    · simp [setKey, h, lookupKey, ih]

theorem lookupKey_setKey_ne (l : List (String × MessageRecord)) (k id : String)
    (v : MessageRecord) (h : id ≠ k) :
    lookupKey (setKey l k v) id = lookupKey l id := by
  induction l with
  | nil => simp [setKey, lookupKey, Ne.symm h]
  | cons kv rest ih =>
    obtain ⟨k', w⟩ := kv
    by_cases hk : k' = k
    · subst hk
      simp [setKey, lookupKey, Ne.symm h]
    · by_cases hid : k' = id
      · subst hid
        simp [setKey, hk, lookupKey]
      · simp [setKey, hk, lookupKey, hid, ih]

theorem lookupKey_dropKey_self (l : List (String × MessageRecord)) (k : String) :
    lookupKey (dropKey l k) k = none := by
  induction l with
  | nil => simp [dropKey, lookupKey]
  | cons kv rest ih =>
    obtain ⟨k', w⟩ := kv
    by_cases h : k' = k
    · simpa [dropKey, List.filter_cons, h] using ih
    · simpa [dropKey, List.filter_cons, lookupKey, h] using ih

theorem lookupKey_dropKey_ne (l : List (String × MessageRecord)) (k id : String)
    (h : id ≠ k) : lookupKey (dropKey l k) id = lookupKey l id := by
  induction l with
  | nil => simp [dropKey]
  | cons kv rest ih =>
    obtain ⟨k', w⟩ := kv
    by_cases hid : k' = id
    · subst hid
      have hkk : ¬(k' = k) := fun he => h he
      simp [dropKey, List.filter_cons, hkk, lookupKey]
    · by_cases hkk : k' = k
      · subst hkk
        simpa [dropKey, List.filter_cons, lookupKey, hid] using ih
      · simpa [dropKey, List.filter_cons, hkk, lookupKey, hid] using ih

theorem lookupKey_eq_none_iff (l : List (String × MessageRecord)) (id : String) :
    lookupKey l id = none ↔ ∀ kv ∈ l, kv.1 ≠ id := by
  induction l with
  | nil => simp [lookupKey]
  | cons kv rest ih =>
    obtain ⟨k', w⟩ := kv
    by_cases h : k' = id <;> simp [lookupKey, h, ih]

theorem mem_of_lookupKey_eq_some {l : List (String × MessageRecord)}
    {id : String} {r : MessageRecord} (h : lookupKey l id = some r) :
    (id, r) ∈ l := by
  induction l with
  | nil => simp [lookupKey] at h
  | cons kv rest ih =>
    obtain ⟨k', w⟩ := kv
    by_cases hk : k' = id
    · subst hk
      simp [lookupKey] at h
      simp [h]
    · simp [lookupKey, hk] at h
      exact List.mem_cons_of_mem _ (ih h)

theorem lookupKey_eq_some_of_mem_nodup {l : List (String × MessageRecord)}
    {id : String} {r : MessageRecord} (hnd : (l.map Prod.fst).Nodup)
    (h : (id, r) ∈ l) : lookupKey l id = some r := by
  induction l with
  | nil => simp at h
  | cons kv rest ih =>
    obtain ⟨k', w⟩ := kv
    simp only [List.map_cons, List.nodup_cons] at hnd
    rcases List.mem_cons.mp h with h1 | h1
    · injection h1 with he1 he2
      subst he1
      subst he2
      simp [lookupKey]
    · have hne : k' ≠ id := by
        intro he
        exact hnd.1 (he ▸ (List.mem_map_of_mem Prod.fst h1))
      simp [lookupKey, hne]
      exact ih hnd.2 h1

theorem length_setKey_of_lookup_some {l : List (String × MessageRecord)}
    {k : String} {r : MessageRecord} (h : lookupKey l k = some r)
    (v : MessageRecord) : (setKey l k v).length = l.length := by
  induction l with
  | nil => simp [lookupKey] at h
  | cons kv rest ih =>
    obtain ⟨k', w⟩ := kv
    by_cases hk : k' = k
    · simp [setKey, hk]
    · simp only [lookupKey, hk, if_false] at h
      simp [setKey, hk, ih h]

theorem lookupKey_filter_key (q : String → Bool)
    (l : List (String × MessageRecord)) (id : String) :
    lookupKey (l.filter (fun kv => q kv.1)) id =
      if q id then lookupKey l id else none := by
  induction l with
  | nil => simp [lookupKey]
  | cons kv rest ih =>
    obtain ⟨k', w⟩ := kv
    by_cases hk : k' = id
    · subst hk
      by_cases hq : q k' <;> simp [List.filter_cons, hq, lookupKey, ih]
    · by_cases hq : q k' <;> simp [List.filter_cons, hq, lookupKey, hk, ih]

theorem foldl_dropKey (K : List String) (l : List (String × MessageRecord)) :
    K.foldl (fun acc k => dropKey acc k) l =
      l.filter (fun kv => !(decide (kv.1 ∈ K))) := by
  induction K generalizing l with
  | nil => simp
  | cons k K ih =>
    rw [List.foldl_cons, ih (dropKey l k), dropKey, List.filter_filter]
    apply List.filter_congr
    intro kv _
    by_cases h1 : kv.1 = k <;> by_cases h2 : kv.1 ∈ K <;>
      simp [h1, h2, List.mem_cons]

theorem cleanup_pass_entries (s : Store) (now : Int) :
    (cleanup_pass s now).entries =
      s.entries.filter (fun kv =>
        !(decide (kv.1 ∈ (s.entries.filter
          (fun kv => sweepPred now kv.2)).map Prod.fst))) := by
  simp [cleanup_pass, foldl_dropKey]

theorem mem_cleanup_pass {s : Store} {now : Int}
    {kv : String × MessageRecord} (h : kv ∈ (cleanup_pass s now).entries) :
    kv ∈ s.entries ∧ sweepPred now kv.2 = false := by
  rw [cleanup_pass_entries] at h
  have hmem := List.mem_of_mem_filter h
  have hp := List.of_mem_filter h
  simp only [Bool.not_eq_true', decide_eq_false_iff_not] at hp
  refine ⟨hmem, ?_⟩
  by_contra hc
  rw [Bool.not_eq_false] at hc
  exact hp (List.mem_map_of_mem Prod.fst (List.mem_filter.mpr ⟨hmem, hc⟩))

theorem cleanup_pass_of_no_expired {s : Store} {now : Int}
    (h : s.entries.filter (fun kv => sweepPred now kv.2) = []) :
    cleanup_pass s now = s := by
  simp [cleanup_pass, h]

theorem cleanup_pass_idem (s : Store) (now : Int) :
    cleanup_pass (cleanup_pass s now) now = cleanup_pass s now := by
  apply cleanup_pass_of_no_expired
  rw [List.filter_eq_nil_iff]
  intro kv hkv
  simp [(mem_cleanup_pass hkv).2]

theorem lookupKey_cleanup_pass_or (s : Store) (now : Int) (id : String) :
    lookupKey (cleanup_pass s now).entries id = lookupKey s.entries id ∨
      lookupKey (cleanup_pass s now).entries id = none := by
  rw [cleanup_pass_entries,
    lookupKey_filter_key (fun k =>
      !(decide (k ∈ (s.entries.filter (fun kv => sweepPred now kv.2)).map Prod.fst)))]
  by_cases h : id ∈ (s.entries.filter (fun kv => sweepPred now kv.2)).map Prod.fst
  · right; simp [h]
  · left; simp [h]

theorem lookupKey_cleanup_pass_none {s : Store} {now : Int} {id : String}
    (h : lookupKey s.entries id = none) :
    lookupKey (cleanup_pass s now).entries id = none := by
  rcases lookupKey_cleanup_pass_or s now id with h1 | h1
  · rw [h1, h]
  · exact h1

theorem lookupKey_cleanup_pass_of_WF {s : Store} {now : Int} {id : String}
    {r : MessageRecord} (hwf : s.WF) (h : lookupKey s.entries id = some r) :
    lookupKey (cleanup_pass s now).entries id =
      if sweepPred now r then none else some r := by
  rw [cleanup_pass_entries,
    lookupKey_filter_key (fun k =>
      !(decide (k ∈ (s.entries.filter (fun kv => sweepPred now kv.2)).map Prod.fst)))]
  have hiff : id ∈ (s.entries.filter (fun kv => sweepPred now kv.2)).map Prod.fst ↔
      sweepPred now r = true := by
    constructor
    · intro hmem
      obtain ⟨kv, hkv, hfst⟩ := List.mem_map.mp hmem
      have hkv' := List.mem_of_mem_filter hkv
      have hp := List.of_mem_filter hkv
      obtain ⟨k', v'⟩ := kv
      cases hfst
      have := lookupKey_eq_some_of_mem_nodup hwf hkv'
      rw [h] at this
      cases Option.some.injEq .. ▸ this
      simpa using hp
    · intro hp
      exact List.mem_map_of_mem Prod.fst
        (List.mem_filter.mpr ⟨mem_of_lookupKey_eq_some h, hp⟩)
  by_cases hsw : sweepPred now r = true
  · simp [hsw, hiff.mpr hsw]
  · have : id ∉ (s.entries.filter (fun kv => sweepPred now kv.2)).map Prod.fst := by
      intro hc; exact hsw (hiff.mp hc)
    simp [hsw, this, h]

theorem mem_setKey {l : List (String × MessageRecord)} {k : String}
    {v : MessageRecord} {kv : String × MessageRecord}
    (h : kv ∈ setKey l k v) : kv = (k, v) ∨ kv ∈ l := by
  induction l with
  | nil => simpa [setKey] using h
  | cons kv' rest ih =>
    obtain ⟨k', w⟩ := kv'
    by_cases hk : k' = k
    · simp only [setKey, hk, if_true] at h
      rcases List.mem_cons.mp h with h1 | h1
      · exact Or.inl h1
      · exact Or.inr (List.mem_cons_of_mem _ h1)
    · simp only [setKey, hk, if_false] at h
      rcases List.mem_cons.mp h with h1 | h1
      · exact Or.inr (h1 ▸ List.mem_cons_self _ _)
      · rcases ih h1 with h2 | h2
        · exact Or.inl h2
        · exact Or.inr (List.mem_cons_of_mem _ h2)

theorem mem_dropKey {l : List (String × MessageRecord)} {k : String}
    {kv : String × MessageRecord} (h : kv ∈ dropKey l k) : kv ∈ l :=
  List.mem_of_mem_filter h

/-! ### Lemmas about the endpoint functions -/

theorem recv_of_lookup_none {s : Store} {id : String}
    (h : lookupKey s.entries id = none) : recv s id = (s, none) := by
  simp [recv, h]

theorem recv_of_lookup_some {s : Store} {id : String} {r : MessageRecord}
    (h : lookupKey s.entries id = some r) :
    recv s id =
      (if r.views_left - 1 ≤ 0 then (⟨dropKey s.entries id⟩ : Store)
       else ⟨setKey s.entries id { r with views_left := r.views_left - 1 }⟩,
       some r.data) := by
  by_cases hv : r.views_left - 1 ≤ 0 <;> simp [recv, h, hv]

theorem recv_snd_eq_some {s : Store} {id : String} {s' : Store} {t : String}
    (h : recv s id = (s', some t)) :
    ∃ r, lookupKey s.entries id = some r ∧ t = r.data := by
  cases hl : lookupKey s.entries id with
  | none =>
    rw [recv_of_lookup_none hl] at h
    exact Option.noConfusion (congrArg Prod.snd h)
  | some r =>
    rw [recv_of_lookup_some hl] at h
    have h2 : some r.data = some t := congrArg Prod.snd h
    exact ⟨r, rfl, (Option.some.inj h2).symm⟩

theorem lookupKey_recv_ne (s : Store) (j id : String) (h : j ≠ id) :
    lookupKey (recv s j).1.entries id = lookupKey s.entries id := by
  cases hl : lookupKey s.entries j with
  | none => rw [recv_of_lookup_none hl]
  | some r =>
    rw [recv_of_lookup_some hl]
    by_cases hv : r.views_left - 1 ≤ 0
    · simp only [hv, if_true]
      exact lookupKey_dropKey_ne _ _ _ (Ne.symm h)
    · simp only [hv, if_false]
      exact lookupKey_setKey_ne _ _ _ _ (Ne.symm h)

theorem lookupKey_send_ne (s : Store) (now : Int) (token id : String)
    (msg : MessageIn) (h : token ≠ id) :
    lookupKey (send s now token msg).1.entries id = lookupKey s.entries id := by
  exact lookupKey_setKey_ne _ _ _ _ (Ne.symm h)

theorem lookup_step_none {s : Store} {id : String} {op : Op}
    (h : lookupKey s.entries id = none)
    (hop : ∀ t n m, op = Op.put t n m → t ≠ id) :
    lookupKey (step s op).entries id = none := by
  cases op with
  | put t n m =>
    rw [step, lookupKey_send_ne s n t id m (hop t n m rfl), h]
  | take j =>
    by_cases hj : j = id
    · subst hj
      rw [step, recv_of_lookup_none h, h]
    · rw [step, lookupKey_recv_ne s j id hj, h]
  | sweep n => exact lookupKey_cleanup_pass_none h

/-! ### Counting successful `recv` calls along an operation sequence -/

theorem takeResults_nil (id : String) (s : Store) : takeResults id s [] = [] := rfl

theorem takeResults_put (id : String) (s : Store) (t : String) (n : Int)
    (m : MessageIn) (rest : List Op) :
    takeResults id s (Op.put t n m :: rest) =
      takeResults id (step s (Op.put t n m)) rest := rfl

theorem takeResults_sweep (id : String) (s : Store) (n : Int) (rest : List Op) :
    takeResults id s (Op.sweep n :: rest) =
      takeResults id (step s (Op.sweep n)) rest := rfl

theorem takeResults_take (id : String) (s : Store) (j : String) (rest : List Op) :
    takeResults id s (Op.take j :: rest) =
      if j = id then (recv s j).2.isSome :: takeResults id (recv s j).1 rest
      else takeResults id (recv s j).1 rest := rfl

theorem getD_false_of_all_false :
    ∀ (l : List Bool), (∀ b ∈ l, b = false) → ∀ i, l.getD i false = false := by
  intro l h i
  induction l generalizing i with
  | nil => simp
  | cons b t iht =>
    cases i with
    | zero => simpa using h b (List.mem_cons_self _ _)
    | succ n =>
      simpa using iht (fun x hx => h x (List.mem_cons_of_mem _ hx)) n

theorem takeResults_all_false {id : String} :
    ∀ (ops : List Op) (s : Store), lookupKey s.entries id = none →
      NoPut id ops → ∀ b ∈ takeResults id s ops, b = false := by
  intro ops
  induction ops with
  | nil =>
    intro s _ _ b hb
    simp [takeResults_nil] at hb
  | cons op rest ih =>
    intro s hnone hnp b hb
    have hnp' : NoPut id rest := fun t n m hm => hnp t n m (List.mem_cons_of_mem _ hm)
    cases op with
    | put t n m =>
      rw [takeResults_put] at hb
      have ht : t ≠ id := hnp t n m (List.mem_cons_self _ _)
      exact ih _ (lookup_step_none hnone
        (fun t' n' m' he => by cases he; exact ht)) hnp' b hb
    | take j =>
      rw [takeResults_take] at hb
      by_cases hj : j = id
      · subst hj
        rw [if_pos rfl, recv_of_lookup_none hnone] at hb
        rcases List.mem_cons.mp hb with h1 | h1
        · simpa using h1
        · exact ih s hnone hnp' b h1
      · rw [if_neg hj] at hb
        have heq := lookupKey_recv_ne s j id hj
        exact ih _ (heq ▸ hnone) hnp' b hb
    | sweep n =>
      rw [takeResults_sweep] at hb
      exact ih _ (lookupKey_cleanup_pass_none hnone) hnp' b hb

theorem takeResults_bound {id : String} :
    ∀ (ops : List Op) (s : Store) (B : Nat),
      (∀ r, lookupKey s.entries id = some r →
        1 ≤ r.views_left ∧ r.views_left.toNat ≤ B) →
      NoPut id ops →
      (takeResults id s ops).count true ≤ B ∧
        (∀ i, B ≤ i → (takeResults id s ops).getD i false = false) := by
  intro ops
  induction ops with
  | nil =>
    intro s B _ _
    refine ⟨by simp [takeResults_nil], fun i _ => by simp [takeResults_nil]⟩
  | cons op rest ih =>
    intro s B hgood hnp
    have hnp' : NoPut id rest := fun t n m hm => hnp t n m (List.mem_cons_of_mem _ hm)
    cases op with
    | put t n m =>
      rw [takeResults_put]
      have ht : t ≠ id := hnp t n m (List.mem_cons_self _ _)
      have heq : lookupKey (step s (Op.put t n m)).entries id =
          lookupKey s.entries id := lookupKey_send_ne s n t id m ht
      exact ih _ B (fun r hr => hgood r (heq ▸ hr)) hnp'
    | sweep n =>
      rw [takeResults_sweep]
      have hstep : step s (Op.sweep n) = cleanup_pass s n := rfl
      rcases lookupKey_cleanup_pass_or s n id with heq | hnone
      · refine ih _ B (fun r hr => hgood r ?_) hnp'
        rw [hstep] at hr
        rw [← heq]
        exact hr
      · refine ih _ B (fun r hr => ?_) hnp'
        rw [hstep, hnone] at hr
        cases hr
    | take j =>
      rw [takeResults_take]
      by_cases hj : j = id
      · rw [if_pos hj, hj]
        cases hl : lookupKey s.entries id with
        | none =>
          rw [recv_of_lookup_none hl]
          have hih := ih s B hgood hnp'
          have hall : ∀ b ∈ takeResults id s rest, b = false :=
            takeResults_all_false rest s hl hnp'
          constructor
          · simpa [List.count_cons] using hih.1
          · intro i _
            apply getD_false_of_all_false
            intro b hb
            rcases List.mem_cons.mp hb with h1 | h1
            · simpa using h1
            · exact hall b h1
        | some r =>
          obtain ⟨hv1, hv2⟩ := hgood r hl
          have hB1 : 1 ≤ B := by omega
          rw [recv_of_lookup_some hl]
          have hgood' : ∀ r', lookupKey
              (if r.views_left - 1 ≤ 0 then (⟨dropKey s.entries id⟩ : Store)
               else ⟨setKey s.entries id
                 { r with views_left := r.views_left - 1 }⟩).entries id = some r' →
              1 ≤ r'.views_left ∧ r'.views_left.toNat ≤ B - 1 := by
            by_cases hv : r.views_left - 1 ≤ 0
            · intro r' hr'
              rw [if_pos hv] at hr'
              rw [lookupKey_dropKey_self] at hr'
              cases hr'
            · intro r' hr'
              rw [if_neg hv] at hr'
              rw [lookupKey_setKey_self] at hr'
              cases hr'
              refine ⟨?_, ?_⟩
              · show 1 ≤ r.views_left - 1
                omega
              · show (r.views_left - 1).toNat ≤ B - 1
                omega
          have hih := ih _ (B - 1) hgood' hnp'
          constructor
          · have h1 := hih.1
            simp only [Option.isSome_some, List.count_cons]
            simp only [beq_self_eq_true, if_true]
            omega
          · intro i hi
            cases i with
            | zero => exact absurd hi (by omega)
            | succ n =>
              simpa [List.getD_cons_succ] using hih.2 n (by omega)
      · rw [if_neg hj]
        have heq := lookupKey_recv_ne s j id hj
        exact ih _ B (fun r hr => hgood r (by rw [← heq]; exact hr)) hnp'

/-! ### The views-remaining invariant -/

theorem run_nil (s : Store) : run s [] = s := rfl

theorem run_cons (s : Store) (op : Op) (rest : List Op) :
    run s (op :: rest) = run (step s op) rest := rfl

theorem pyOrInt_ge_one {x : Option Int} (h : ∀ v, x = some v → 1 ≤ v) :
    1 ≤ pyOrInt x 1 := by
  cases x with
  | none => simp [pyOrInt]
  | some v =>
    have := h v rfl
    simp only [pyOrInt]
    split <;> omega

theorem viewsPos_step {s : Store} {op : Op} (h : viewsPos s)
    (hv : ValidPut op) : viewsPos (step s op) := by
  cases op with
  | put t n m =>
    intro kv hkv
    rcases mem_setKey hkv with h1 | h1
    · subst h1
      exact pyOrInt_ge_one hv.2
    · exact h kv h1
  | take j =>
    intro kv hkv
    cases hl : lookupKey s.entries j with
    | none =>
      rw [show step s (Op.take j) = (recv s j).1 from rfl,
        recv_of_lookup_none hl] at hkv
      exact h kv hkv
    | some r =>
      rw [show step s (Op.take j) = (recv s j).1 from rfl,
        recv_of_lookup_some hl] at hkv
      by_cases hvl : r.views_left - 1 ≤ 0
      · rw [if_pos hvl] at hkv
        exact h kv (mem_dropKey hkv)
      · rw [if_neg hvl] at hkv
        rcases mem_setKey hkv with h1 | h1
        · subst h1
          show 1 ≤ r.views_left - 1
          omega
        · exact h kv h1
  | sweep n =>
    intro kv hkv
    exact h kv (mem_cleanup_pass hkv).1

theorem viewsPos_run {s : Store} {ops : List Op} (h : viewsPos s)
    (hv : ∀ op ∈ ops, ValidPut op) : viewsPos (run s ops) := by
  induction ops generalizing s with
  | nil => exact h
  | cons op rest ih =>
    rw [run_cons]
    exact ih (viewsPos_step h (hv op (List.mem_cons_self _ _)))
      (fun o ho => hv o (List.mem_cons_of_mem _ ho))

theorem hexDigit_mem_hexChars : ∀ n, n < 16 → hexDigit n ∈ "0123456789abcdef".data := by
  decide

/-! ### Claims -/

/-- C1, counterexample: `recv` never checks `expires`, so a record created by
`send` with `ttl = 1` at `t0 = 0` (hence `expires = 1`) still yields
`found = true` with its payload from any `recv` not preceded by a cleanup
pass, in particular one issued at `now = 1 ≥ t0 + T` — the claim requires
`found = false` there regardless of whether the sweeper has run. -/
theorem recv_returns_expired_payload :
    (send ⟨[]⟩ 0 "aaaaaaaa" ⟨"x", some 1, some 5⟩).2.id = "aaaaaaaa" ∧
    lookupKey (send ⟨[]⟩ 0 "aaaaaaaa" ⟨"x", some 1, some 5⟩).1.entries "aaaaaaaa" =
      some ⟨"x", 1, 5⟩ ∧
    (recv (send ⟨[]⟩ 0 "aaaaaaaa" ⟨"x", some 1, some 5⟩).1 "aaaaaaaa").2 =
      some "x" := by
  decide

/-- C1, amended: TTL expiry is enforced only by the sweeper. After a cleanup
pass at a time `now` strictly greater than the record's `expires`, the record
is gone and every subsequent `recv` of its id returns `found = false`. -/
theorem recv_after_cleanup_expired_none (s : Store) (id : String)
    (r : MessageRecord) (now : Int) (hwf : s.WF)
    (h : lookupKey s.entries id = some r) (hexp : r.expires < now) :
    lookupKey (cleanup_pass s now).entries id = none ∧
    (recv (cleanup_pass s now) id).2 = none := by
  have h1 : lookupKey (cleanup_pass s now).entries id = none := by
    rw [lookupKey_cleanup_pass_of_WF hwf h]
    simp [sweepPred, hexp]
  exact ⟨h1, by rw [recv_of_lookup_none h1]⟩

/-- Witness for `recv_after_cleanup_expired_none` at a concrete store. -/
theorem recv_after_cleanup_expired_none_witness :
    lookupKey (cleanup_pass ⟨[("aa", ⟨"x", 1, 5⟩)]⟩ 2).entries "aa" = none ∧
    (recv (cleanup_pass ⟨[("aa", ⟨"x", 1, 5⟩)]⟩ 2) "aa").2 = none :=
  recv_after_cleanup_expired_none ⟨[("aa", ⟨"x", 1, 5⟩)]⟩ "aa" ⟨"x", 1, 5⟩ 2
    (by decide) (by decide) (by decide)

/-- C2: a record holding `views_left = N ≥ 1` yields `found = true` from at
most `N` of the `recv` calls against its id over any operation sequence that
never re-`put`s that id, and the `(N+1)`-th and all later such calls yield
`found = false`. -/
theorem recv_at_most_views (s : Store) (id : String) (N : Int)
    (r : MessageRecord) (ops : List Op)
    (h1 : lookupKey s.entries id = some r) (h2 : r.views_left = N)
    (h3 : 1 ≤ N) (h4 : NoPut id ops) :
    (takeResults id s ops).count true ≤ N.toNat ∧
    (∀ i, N.toNat ≤ i → (takeResults id s ops).getD i false = false) := by
  apply takeResults_bound ops s N.toNat ?_ h4
  intro r' hr'
  rw [h1] at hr'
  cases hr'
  constructor <;> omega

/-- Witness for `recv_at_most_views`: three `recv`s against a 2-view record. -/
theorem recv_at_most_views_witness :
    (takeResults "aa" ⟨[("aa", ⟨"x", 9, 2⟩)]⟩
      [Op.take "aa", Op.take "aa", Op.take "aa"]).count true ≤ (2 : Int).toNat ∧
    (∀ i, (2 : Int).toNat ≤ i → (takeResults "aa" ⟨[("aa", ⟨"x", 9, 2⟩)]⟩
      [Op.take "aa", Op.take "aa", Op.take "aa"]).getD i false = false) :=
  recv_at_most_views ⟨[("aa", ⟨"x", 9, 2⟩)]⟩ "aa" 2 ⟨"x", 9, 2⟩
    [Op.take "aa", Op.take "aa", Op.take "aa"] (by decide) rfl (by decide)
    (by intro t n m hm; simp at hm)

/-- C3, counterexample: `send` with `ttl = 0` does not fail — Python's
`msg.ttl or TTL_SECONDS` treats `0` as falsy, substitutes the default 60,
creates the record and returns its id, and the store grows from 0 to 1
records, contradicting "no id returned, no record created, store unchanged". -/
theorem send_ttl_zero_creates_record :
    lookupKey (send ⟨[]⟩ 0 "bb" ⟨"x", some 0, some 1⟩).1.entries "bb" =
      some ⟨"x", 60, 1⟩ ∧
    (send ⟨[]⟩ 0 "bb" ⟨"x", some 0, some 1⟩).2.id = "bb" ∧
    health ⟨[]⟩ = 0 ∧
    health (send ⟨[]⟩ 0 "bb" ⟨"x", some 0, some 1⟩).1 = 1 := by
  decide

/-- C3, amended: `send` never rejects its inputs. It always creates a record
and returns an id; `ttl` of `None` or `0` falls back to `TTL_SECONDS = 60`
and `max_views` of `None` or `0` falls back to `1` (negative values are
stored as given). -/
theorem send_always_inserts (s : Store) (now : Int) (token : String)
    (msg : MessageIn) :
    lookupKey (send s now token msg).1.entries token =
      some ⟨msg.text, now + pyOrInt msg.ttl TTL_SECONDS, pyOrInt msg.max_views 1⟩ ∧
    (send s now token msg).2.id = token ∧
    pyOrInt (some 0) TTL_SECONDS = TTL_SECONDS ∧
    pyOrInt (some 0) 1 = 1 := by
  exact ⟨lookupKey_setKey_self s.entries token _, rfl, by decide, by decide⟩

/-- C4, counterexample: the freshly generated id "cc" already maps to a live
record (`views_left = 3 > 0`, `expires = 100 > now = 0`), yet `send` neither
retries nor fails: it silently overwrites the existing record and returns the
colliding id. No `CapacityError` path exists in the code. -/
theorem send_collision_overwrite_example :
    lookupKey (⟨[("cc", ⟨"old", 100, 3⟩)]⟩ : Store).entries "cc" =
      some ⟨"old", 100, 3⟩ ∧
    lookupKey (send ⟨[("cc", ⟨"old", 100, 3⟩)]⟩ 0 "cc"
      ⟨"new", some 60, some 1⟩).1.entries "cc" = some ⟨"new", 60, 1⟩ ∧
    (send ⟨[("cc", ⟨"old", 100, 3⟩)]⟩ 0 "cc" ⟨"new", some 60, some 1⟩).2.id =
      "cc" := by
  decide

/-- C4, amended: when the generated id collides with an existing record,
`send` silently overwrites that record in place (the store size does not
change) and returns the colliding id; there is no retry and no error. -/
theorem send_collision_overwrites (s : Store) (now : Int) (token : String)
    (msg : MessageIn) (old : MessageRecord)
    (h : lookupKey s.entries token = some old) :
    lookupKey (send s now token msg).1.entries token =
      some ⟨msg.text, now + pyOrInt msg.ttl TTL_SECONDS, pyOrInt msg.max_views 1⟩ ∧
    (send s now token msg).1.entries.length = s.entries.length ∧
    (send s now token msg).2.id = token :=
  ⟨lookupKey_setKey_self s.entries token _, length_setKey_of_lookup_some h _, rfl⟩

/-- Witness for `send_collision_overwrites` at a concrete store. -/
theorem send_collision_overwrites_witness :
    lookupKey (send ⟨[("cc", ⟨"old", 100, 3⟩)]⟩ 7 "cc"
      ⟨"new", some 60, some 2⟩).1.entries "cc" =
      some ⟨"new", 7 + pyOrInt (some 60) TTL_SECONDS, pyOrInt (some 2) 1⟩ ∧
    (send ⟨[("cc", ⟨"old", 100, 3⟩)]⟩ 7 "cc"
      ⟨"new", some 60, some 2⟩).1.entries.length =
      (⟨[("cc", ⟨"old", 100, 3⟩)]⟩ : Store).entries.length ∧
    (send ⟨[("cc", ⟨"old", 100, 3⟩)]⟩ 7 "cc" ⟨"new", some 60, some 2⟩).2.id =
      "cc" :=
  send_collision_overwrites ⟨[("cc", ⟨"old", 100, 3⟩)]⟩ 7 "cc"
    ⟨"new", some 60, some 2⟩ ⟨"old", 100, 3⟩ (by decide)

/-- C5, counterexample: a record with `expires = 5` is kept, unchanged, by a
cleanup pass at `now = 5`, although `expiresAt ≤ now` holds — the comparison
in the code is strict (`v["expires"] < now`), so the claim's boundary case
fails. -/
theorem cleanup_keeps_record_expiring_now :
    (5 : Int) ≤ 5 ∧
    cleanup_pass ⟨[("dd", ⟨"x", 5, 1⟩)]⟩ 5 = ⟨[("dd", ⟨"x", 5, 1⟩)]⟩ := by
  decide

/-- C5, amended: one cleanup pass at time `now` removes exactly the records
with `expires < now` (strictly) or `views_left ≤ 0` and leaves every other
record unchanged; running the pass again at the same `now` changes nothing. -/
theorem cleanup_pass_removes_iff (s : Store) (now : Int) (id : String)
    (r : MessageRecord) (hwf : s.WF) (h : lookupKey s.entries id = some r) :
    (lookupKey (cleanup_pass s now).entries id =
      if r.expires < now ∨ r.views_left ≤ 0 then none else some r) ∧
    cleanup_pass (cleanup_pass s now) now = cleanup_pass s now := by
  constructor
  · rw [lookupKey_cleanup_pass_of_WF hwf h]
    unfold sweepPred
    by_cases h1 : r.expires < now <;> by_cases h2 : r.views_left ≤ 0 <;>
      simp [h1, h2]
  · exact cleanup_pass_idem s now

/-- Witness for `cleanup_pass_removes_iff` at a concrete store. -/
theorem cleanup_pass_removes_iff_witness :
    (lookupKey (cleanup_pass ⟨[("dd", ⟨"x", 5, 1⟩)]⟩ 6).entries "dd" =
      if (5 : Int) < 6 ∨ (1 : Int) ≤ 0 then none else some ⟨"x", 5, 1⟩) ∧
    cleanup_pass (cleanup_pass ⟨[("dd", ⟨"x", 5, 1⟩)]⟩ 6) 6 =
      cleanup_pass ⟨[("dd", ⟨"x", 5, 1⟩)]⟩ 6 :=
  cleanup_pass_removes_iff ⟨[("dd", ⟨"x", 5, 1⟩)]⟩ 6 "dd" ⟨"x", 5, 1⟩
    (by decide) (by decide)

/-- C6, counterexample: `health` reports `len(store)`, which counts records
that are past `expires` but not yet swept. With one record whose
`expires = 0` at `now = 5`, `health` reports 1 while 0 records satisfy the
LIVE invariant. -/
theorem health_counts_expired_record :
    health ⟨[("ee", ⟨"x", 0, 1⟩)]⟩ = 1 ∧
    liveCount ⟨[("ee", ⟨"x", 0, 1⟩)]⟩ 5 = 0 := by
  decide

/-- C6, amended: `health` returns the number of records currently in the
store map — an upper bound on the number of LIVE records, which it can
strictly exceed while expired records await the sweeper. -/
theorem health_eq_size_ge_live (s : Store) (now : Int) :
    health s = s.entries.length ∧ liveCount s now ≤ health s :=
  ⟨rfl, List.length_filter_le _ _⟩

/-- C7, counterexample: after a valid `put` (`ttl = 1 > 0`, `maxViews = 1`)
at `t0 = 0`, the record is still present in the store at `now = 2` even
though `now < expiresAt` fails (`2 ≥ 1`), and `recv` returns the expired
record's payload — so reachability is not equivalent to the LIVE invariant. -/
theorem expired_record_still_reachable :
    run ⟨[]⟩ [Op.put "ff" 0 ⟨"x", some 1, some 1⟩] = ⟨[("ff", ⟨"x", 1, 1⟩)]⟩ ∧
    lookupKey (run ⟨[]⟩ [Op.put "ff" 0 ⟨"x", some 1, some 1⟩]).entries "ff" =
      some ⟨"x", 1, 1⟩ ∧
    ¬((2 : Int) < (1 : Int)) ∧
    (recv (run ⟨[]⟩ [Op.put "ff" 0 ⟨"x", some 1, some 1⟩]) "ff").2 =
      some "x" := by
  decide

/-- C7, amended: half of the invariant does hold: over any operation
sequence whose `put`s satisfy the preconditions (`ttl > 0`, `maxViews ≥ 1`),
every record present in the store keeps `views_left ≥ 1`, so no
view-exhausted record is ever reachable; the `now < expiresAt` half fails
(see `expired_record_still_reachable`). -/
theorem views_left_invariant (s : Store) (ops : List Op)
    (h : viewsPos s) (hv : ∀ op ∈ ops, ValidPut op) :
    viewsPos (run s ops) := viewsPos_run h hv

/-- Witness for `views_left_invariant` on a concrete run. -/
theorem views_left_invariant_witness :
    viewsPos (run ⟨[]⟩ [Op.put "aa" 0 ⟨"x", some 1, some 2⟩, Op.take "aa"]) :=
  views_left_invariant ⟨[]⟩ [Op.put "aa" 0 ⟨"x", some 1, some 2⟩, Op.take "aa"]
    (fun kv hkv => absurd hkv (by simp))
    (by
      intro op hop
      rcases List.mem_cons.mp hop with h1 | h1
      · cases h1
        refine ⟨fun v hveq => ?_, fun v hveq => ?_⟩
        · cases hveq
          decide
        · cases hveq
          decide
      · rcases List.mem_cons.mp h1 with h2 | h2
        · cases h2
          trivial
        · simp at h2)

/-- C8: `recv` against an id absent from the store returns `found = false`
and returns the store completely unchanged, hence repeating the call any
number of times yields the same result. -/
theorem recv_gone_idempotent (s : Store) (id : String)
    (h : lookupKey s.entries id = none) :
    recv s id = (s, none) ∧ recv (recv s id).1 id = (s, none) := by
  have h1 : recv s id = (s, none) := recv_of_lookup_none h
  exact ⟨h1, by rw [h1, recv_of_lookup_none h]⟩

/-- Witness for `recv_gone_idempotent` on a store not containing the id. -/
theorem recv_gone_idempotent_witness :
    recv ⟨[("aa", ⟨"x", 9, 2⟩)]⟩ "gone" = (⟨[("aa", ⟨"x", 9, 2⟩)]⟩, none) ∧
    recv (recv ⟨[("aa", ⟨"x", 9, 2⟩)]⟩ "gone").1 "gone" =
      (⟨[("aa", ⟨"x", 9, 2⟩)]⟩, none) :=
  recv_gone_idempotent ⟨[("aa", ⟨"x", 9, 2⟩)]⟩ "gone" (by decide)

/-- C9: the concrete scenario — `put("hello", ttl=60, maxViews=2)` at `t=0`,
then three `recv`s (issued at t=0, t=30, t=31; `recv` reads no clock, so the
call times do not enter the computation and t=31 < 60 keeps TTL out of play)
return `("hello", true)`, `("hello", true)`, `(_, false)` — together with
payload fidelity in general: every successful `recv` returns exactly the
`data` field stored for that id. -/
theorem payload_fidelity :
    ((recv (send ⟨[]⟩ 0 "X" ⟨"hello", some 60, some 2⟩).1 "X").2 =
      some "hello") ∧
    ((recv (recv (send ⟨[]⟩ 0 "X" ⟨"hello", some 60, some 2⟩).1 "X").1 "X").2 =
      some "hello") ∧
    ((recv (recv (recv (send ⟨[]⟩ 0 "X" ⟨"hello", some 60, some 2⟩).1 "X").1
      "X").1 "X").2 = none) ∧
    (∀ (s : Store) (id : String) (s' : Store) (t : String),
      recv s id = (s', some t) →
      ∃ r, lookupKey s.entries id = some r ∧ t = r.data) :=
  ⟨by decide, by decide, by decide, fun _ _ _ _ h => recv_snd_eq_some h⟩

/-- Witness for the general payload-fidelity part of `payload_fidelity`. -/
theorem payload_fidelity_witness :
    ∃ r, lookupKey (⟨[("X", ⟨"hello", 60, 2⟩)]⟩ : Store).entries "X" =
      some r ∧ "hello" = r.data :=
  payload_fidelity.2.2.2 ⟨[("X", ⟨"hello", 60, 2⟩)]⟩ "X"
    ⟨[("X", ⟨"hello", 60, 1⟩)]⟩ "hello" (by decide)

/-- C10: `secrets.token_hex(4)` hex-encodes 4 random bytes, so the id
returned by `send` is a string of exactly 8 lowercase hexadecimal
characters, and it is exactly the generated token — independent of the
payload, ttl and max_views arguments. -/
theorem token_hex_id_format (bytes : List Nat) (h4 : bytes.length = 4)
    (hb : ∀ b ∈ bytes, b < 256) :
    (token_hex bytes).length = 8 ∧
    (∀ c ∈ (token_hex bytes).data, c ∈ "0123456789abcdef".data) ∧
    (∀ (s : Store) (now : Int) (msg : MessageIn),
      (send s now (token_hex bytes) msg).2.id = token_hex bytes) := by
  match bytes, h4 with
  | [a, b, c, d], _ =>
    have ha := hb a (by simp)
    have hbb := hb b (by simp)
    have hc := hb c (by simp)
    have hd := hb d (by simp)
    refine ⟨rfl, ?_, fun _ _ _ => rfl⟩
    intro ch hch
    simp only [token_hex, List.flatMap_cons, List.flatMap_nil, byteToHex,
      List.append_nil] at hch
    simp only [List.cons_append, List.nil_append, List.mem_cons,
      List.not_mem_nil, or_false] at hch
    rcases hch with h | h | h | h | h | h | h | h <;> subst h <;>
      exact hexDigit_mem_hexChars _ (by omega)

/-- Witness for `token_hex_id_format` at concrete bytes. -/
theorem token_hex_id_format_witness :
    (token_hex [0, 255, 16, 171]).length = 8 ∧
    (∀ c ∈ (token_hex [0, 255, 16, 171]).data, c ∈ "0123456789abcdef".data) ∧
    (∀ (s : Store) (now : Int) (msg : MessageIn),
      (send s now (token_hex [0, 255, 16, 171]) msg).2.id =
        token_hex [0, 255, 16, 171]) :=
  token_hex_id_format [0, 255, 16, 171] rfl (by decide)

end EphemeralMessage
